import Mathlib

/-!
Verification of the PolishPal change-analysis core.

The repository ships three line-identical copies of the change analyzer:
`analyzeChanges` / `isSpellingError` in `functions/api.js` (Cloudflare Pages
Function), in `src/index.js` (Worker, JavaScript) and in `src/index.ts`
(Worker, TypeScript).  This file gives a shallow embedding of that code over
`List Char` and proves the specified properties.

Modelling conventions:
- A JavaScript string is modelled as `List Char`.
- `String.prototype.toLowerCase` is modelled on its ASCII fragment by mapping
  `Char.toLower` over the characters (the Lean core function that lowers
  exactly the basic latin letters A-Z); all behaviour the claims exercise is
  ASCII.
- `String.prototype.split` with the regular expression of one-or-more
  whitespace characters is modelled by `splitWs` below.  Note the ECMAScript
  semantics that the embedding must reproduce: `split` does not discard empty
  segments, so a leading (resp. trailing) whitespace run contributes a leading
  (resp. trailing) empty segment, and splitting the empty string yields a
  one-element list holding the empty string.
- The floating-point comparison `commonChars / minLength > 0.6` is modelled by
  the exact rational comparison `5 * commonChars > 3 * minLength`.  The IEEE
  double nearest to 0.6 lies strictly below 3/5, so for every count and length
  that a 64-bit float represents exactly (far beyond any string these services
  accept, which cap input at 5000 characters) the two comparisons agree.
-/

/-- A JavaScript string, modelled as its list of characters. -/
abbrev Str := List Char

/-- The characters matched by the regular-expression class backslash-s that the
sources split on, restricted to the ASCII range plus no-break space. -/
def isJsWhitespace (c : Char) : Bool :=
  c = ' ' || c = '\t' || c = '\n' || c = '\r' || c = '\x0b' || c = '\x0c' || c = ' '

/-- `String.prototype.toLowerCase`, ASCII fragment: lower each character. -/
def jsToLower (s : Str) : Str :=
  s.map Char.toLower

/-- Does the string start with a whitespace character? -/
def wsStart : Str → Bool
  | [] => false
  | d :: _ => isJsWhitespace d

/-- Does a non-whitespace run end here (end of string or whitespace next)? -/
def tokenBreak : Str → Bool
  | [] => true
  | d :: _ => isJsWhitespace d

/-- The split of the sources (api.js line 46, index.js line 78, index.ts line
102) on the regular expression of one-or-more whitespace characters.
ECMAScript split keeps empty boundary segments: the empty string maps to a
one-element list holding the empty string, and a whitespace character opens a
fresh empty segment exactly when it is the last character of its whitespace
run (so a run of whitespace acts as one single separator; the theorem
`splitWs_ws_run` below restates this in terms of dropping the run). -/
def splitWs : Str → List Str
  | [] => [[]]
  | c :: cs =>
    if isJsWhitespace c then
      if wsStart cs then splitWs cs else [] :: splitWs cs
    else
      (splitWs cs).modifyHead (fun w => c :: w)

/-- Tokenizer following the words of the specification data model: the maximal
runs of non-whitespace characters, in order, with empty tokens discarded.
This is the spec-side definition used to compare against the code-side
`splitWs`. -/
def specTokens : Str → List Str
  | [] => []
  | c :: cs =>
    if isJsWhitespace c then
      specTokens cs
    else
      if tokenBreak cs then [c] :: specTokens cs
      else (specTokens cs).modifyHead (fun w => c :: w)

/-- One entry of the analysis output; the field names follow the object pushed
by `analyzeChanges` (api.js lines 79-85) and the `AnalysisItem` interface of
index.ts. -/
structure AnalysisItem where
  position : Nat
  original : Str
  corrected : Str
  type : Str
  suggestion : Str
deriving DecidableEq, Repr

/-- The count of positions below the shorter length at which the two words
carry equal characters (api.js lines 105-112). -/
def commonCharsCount (word1 word2 : Str) : Nat :=
  (word1.zip word2).countP (fun p => p.1 == p.2)

/-- `isSpellingError` (api.js lines 98-115).  The falsy test on a JavaScript
string holds exactly for the empty string, `Math.abs` of the length difference
is the natural absolute difference, and the float comparison against 0.6 is
the exact rational comparison (see the header note). -/
def isSpellingError (word1 word2 : Str) : Bool :=
  if word1 = [] ∨ word2 = [] then false
  else if ((word1.length : Int) - (word2.length : Int)).natAbs > 2 then false
  else decide (5 * commonCharsCount word1 word2 > 3 * Nat.min word1.length word2.length)

/-- The error-type / suggestion decision chain of `analyzeChanges`
(api.js lines 58-77).  The source initializes `errorType` to the string
unknown and `suggestion` to the corrected word, then runs an exhaustive
if/else chain whose every branch overwrites both; the chain is transcribed
branch by branch. -/
def classifyChange (originalWord correctedWord : Str) : Str × Str :=
  if originalWord = [] ∧ correctedWord ≠ [] then
    ("missing_word".toList, "Add \"".toList ++ correctedWord ++ "\"".toList)
  else if originalWord ≠ [] ∧ correctedWord = [] then
    ("extra_word".toList, "Remove \"".toList ++ originalWord ++ "\"".toList)
  else if isSpellingError originalWord correctedWord then
    ("spelling".toList, "\"".toList ++ originalWord ++ "\" → \"".toList ++ correctedWord ++ "\"".toList)
  else if originalWord = "i".toList ∧ correctedWord = "i".toList then
    ("capitalization".toList, "Capitalize \"I\"".toList)
  else
    ("grammar".toList, "\"".toList ++ originalWord ++ "\" → \"".toList ++ correctedWord ++ "\"".toList)

/-- One iteration of the comparison loop (api.js lines 57-86): skip when the
padded words agree, otherwise push an annotation built from the decision
chain. -/
def consStep (i : Nat) (originalWord correctedWord : Str) (rest : List AnalysisItem) :
    List AnalysisItem :=
  if originalWord = correctedWord then rest
  else
    ⟨i, originalWord, correctedWord,
      (classifyChange originalWord correctedWord).1,
      (classifyChange originalWord correctedWord).2⟩ :: rest

/-- The tail of the loop once the original side is exhausted: the original
word reads as the empty string at every remaining index. -/
def analyzeTailC (i : Nat) : List Str → List AnalysisItem
  | [] => []
  | c :: cs => consStep i [] c (analyzeTailC (i + 1) cs)

/-- The tail of the loop once the corrected side is exhausted. -/
def analyzeTailO (i : Nat) : List Str → List AnalysisItem
  | [] => []
  | o :: os => consStep i o [] (analyzeTailO (i + 1) os)

/-- The comparison loop of `analyzeChanges` (api.js lines 51-87): indices run
from `i` up to the longer word list, shorter side padded with the empty
string (the `||` default of lines 54-55 maps an out-of-range read, and an
in-range empty string, both to the empty string). -/
def analyzeWords : Nat → List Str → List Str → List AnalysisItem
  | i, [], cs => analyzeTailC i cs
  | i, o :: os, [] => consStep i o [] (analyzeTailO (i + 1) os)
  | i, o :: os, c :: cs => consStep i o c (analyzeWords (i + 1) os cs)

/-- `analyzeChanges` of the Cloudflare Pages Function (api.js lines 45-90):
lower-case both inputs, split them on whitespace runs, and run the positional
comparison loop from index 0. -/
def analyzeChanges (original corrected : Str) : List AnalysisItem :=
  analyzeWords 0 (splitWs (jsToLower original)) (splitWs (jsToLower corrected))

/-!
### The Cloudflare Worker JavaScript variant

`analyzeChanges` and `isSpellingError` of src/index.js (lines 77-147) are
transcribed below exactly as the Pages Function above was; the JavaScript
built-ins (`toLowerCase`, `split`) are the shared runtime and reuse the
shared embeddings `jsToLower` and `splitWs`.
-/

namespace WorkerJs

/-- index.js lines 137-144. -/
def commonCharsCount (word1 word2 : Str) : Nat :=
  (word1.zip word2).countP (fun p => p.1 == p.2)

/-- index.js lines 130-147. -/
def isSpellingError (word1 word2 : Str) : Bool :=
  if word1 = [] ∨ word2 = [] then false
  else if ((word1.length : Int) - (word2.length : Int)).natAbs > 2 then false
  else decide (5 * WorkerJs.commonCharsCount word1 word2 >
    3 * Nat.min word1.length word2.length)

/-- index.js lines 90-109. -/
def classifyChange (originalWord correctedWord : Str) : Str × Str :=
  if originalWord = [] ∧ correctedWord ≠ [] then
    ("missing_word".toList, "Add \"".toList ++ correctedWord ++ "\"".toList)
  else if originalWord ≠ [] ∧ correctedWord = [] then
    ("extra_word".toList, "Remove \"".toList ++ originalWord ++ "\"".toList)
  else if WorkerJs.isSpellingError originalWord correctedWord then
    ("spelling".toList, "\"".toList ++ originalWord ++ "\" → \"".toList ++ correctedWord ++ "\"".toList)
  else if originalWord = "i".toList ∧ correctedWord = "i".toList then
    ("capitalization".toList, "Capitalize \"I\"".toList)
  else
    ("grammar".toList, "\"".toList ++ originalWord ++ "\" → \"".toList ++ correctedWord ++ "\"".toList)

/-- index.js lines 89-118. -/
def consStep (i : Nat) (originalWord correctedWord : Str) (rest : List AnalysisItem) :
    List AnalysisItem :=
  if originalWord = correctedWord then rest
  else
    ⟨i, originalWord, correctedWord,
      (WorkerJs.classifyChange originalWord correctedWord).1,
      (WorkerJs.classifyChange originalWord correctedWord).2⟩ :: rest

def analyzeTailC (i : Nat) : List Str → List AnalysisItem
  | [] => []
  | c :: cs => WorkerJs.consStep i [] c (WorkerJs.analyzeTailC (i + 1) cs)

def analyzeTailO (i : Nat) : List Str → List AnalysisItem
  | [] => []
  | o :: os => WorkerJs.consStep i o [] (WorkerJs.analyzeTailO (i + 1) os)

/-- index.js lines 83-119. -/
def analyzeWords : Nat → List Str → List Str → List AnalysisItem
  | i, [], cs => WorkerJs.analyzeTailC i cs
  | i, o :: os, [] => WorkerJs.consStep i o [] (WorkerJs.analyzeTailO (i + 1) os)
  | i, o :: os, c :: cs => WorkerJs.consStep i o c (WorkerJs.analyzeWords (i + 1) os cs)

/-- index.js lines 77-122. -/
def analyzeChanges (original corrected : Str) : List AnalysisItem :=
  WorkerJs.analyzeWords 0 (splitWs (jsToLower original)) (splitWs (jsToLower corrected))

end WorkerJs

/-!
### The Cloudflare Worker TypeScript variant

`analyzeChanges` and `isSpellingError` of src/index.ts (lines 101-168),
again transcribed the same way.
-/

namespace WorkerTs

/-- index.ts lines 158-165. -/
def commonCharsCount (word1 word2 : Str) : Nat :=
  (word1.zip word2).countP (fun p => p.1 == p.2)

/-- index.ts lines 151-168. -/
def isSpellingError (word1 word2 : Str) : Bool :=
  if word1 = [] ∨ word2 = [] then false
  else if ((word1.length : Int) - (word2.length : Int)).natAbs > 2 then false
  else decide (5 * WorkerTs.commonCharsCount word1 word2 >
    3 * Nat.min word1.length word2.length)

/-- index.ts lines 114-131. -/
def classifyChange (originalWord correctedWord : Str) : Str × Str :=
  if originalWord = [] ∧ correctedWord ≠ [] then
    ("missing_word".toList, "Add \"".toList ++ correctedWord ++ "\"".toList)
  else if originalWord ≠ [] ∧ correctedWord = [] then
    ("extra_word".toList, "Remove \"".toList ++ originalWord ++ "\"".toList)
  else if WorkerTs.isSpellingError originalWord correctedWord then
    ("spelling".toList, "\"".toList ++ originalWord ++ "\" → \"".toList ++ correctedWord ++ "\"".toList)
  else if originalWord = "i".toList ∧ correctedWord = "i".toList then
    ("capitalization".toList, "Capitalize \"I\"".toList)
  else
    ("grammar".toList, "\"".toList ++ originalWord ++ "\" → \"".toList ++ correctedWord ++ "\"".toList)

/-- index.ts lines 113-140. -/
def consStep (i : Nat) (originalWord correctedWord : Str) (rest : List AnalysisItem) :
    List AnalysisItem :=
  if originalWord = correctedWord then rest
  else
    ⟨i, originalWord, correctedWord,
      (WorkerTs.classifyChange originalWord correctedWord).1,
      (WorkerTs.classifyChange originalWord correctedWord).2⟩ :: rest

def analyzeTailC (i : Nat) : List Str → List AnalysisItem
  | [] => []
  | c :: cs => WorkerTs.consStep i [] c (WorkerTs.analyzeTailC (i + 1) cs)

def analyzeTailO (i : Nat) : List Str → List AnalysisItem
  | [] => []
  | o :: os => WorkerTs.consStep i o [] (WorkerTs.analyzeTailO (i + 1) os)

/-- index.ts lines 107-141. -/
def analyzeWords : Nat → List Str → List Str → List AnalysisItem
  | i, [], cs => WorkerTs.analyzeTailC i cs
  | i, o :: os, [] => WorkerTs.consStep i o [] (WorkerTs.analyzeTailO (i + 1) os)
  | i, o :: os, c :: cs => WorkerTs.consStep i o c (WorkerTs.analyzeWords (i + 1) os cs)

/-- index.ts lines 101-144. -/
def analyzeChanges (original corrected : Str) : List AnalysisItem :=
  WorkerTs.analyzeWords 0 (splitWs (jsToLower original)) (splitWs (jsToLower corrected))

end WorkerTs

/-! ### Character-level facts about the ASCII lower-casing -/

theorem char_toNat_ofNat {n : Nat} (h : n.isValidChar) : (Char.ofNat n).toNat = n := by
  rw [Char.ofNat, dif_pos h]
  rfl

theorem uint32_le_iff {a b : UInt32} : a ≤ b ↔ a.toNat ≤ b.toNat := by
  constructor
  · intro h
    exact h
  · intro h
    exact h

theorem char_isUpper_iff (c : Char) : c.isUpper = true ↔ 65 ≤ c.toNat ∧ c.toNat ≤ 90 := by
  simp only [Char.isUpper, Bool.and_eq_true, decide_eq_true_iff, ge_iff_le]
  constructor
  · rintro ⟨h1, h2⟩
    exact ⟨uint32_le_iff.mp h1, uint32_le_iff.mp h2⟩
  · rintro ⟨h1, h2⟩
    exact ⟨uint32_le_iff.mpr h1, uint32_le_iff.mpr h2⟩

theorem char_isUpper_toLower (c : Char) : (Char.toLower c).isUpper = false := by
  unfold Char.toLower
  simp only []
  split
  · next h =>
    have hv : (c.toNat + 32).isValidChar := Or.inl (by omega)
    have ht : (Char.ofNat (c.toNat + 32)).toNat = c.toNat + 32 := char_toNat_ofNat hv
    by_contra hu
    rw [Bool.not_eq_false, char_isUpper_iff] at hu
    omega
  · next h =>
    by_contra hu
    rw [Bool.not_eq_false, char_isUpper_iff] at hu
    exact h ⟨hu.1, hu.2⟩

theorem char_toLower_of_not_upper {c : Char} (h : c.isUpper = false) : Char.toLower c = c := by
  unfold Char.toLower
  simp only []
  split
  · next hcond =>
    exfalso
    rw [Bool.eq_false_iff, Ne, char_isUpper_iff] at h
    exact h hcond
  · rfl

theorem char_toLower_idem (c : Char) : Char.toLower (Char.toLower c) = Char.toLower c :=
  char_toLower_of_not_upper (char_isUpper_toLower c)

/-! ### Structure of the splitter -/

theorem splitWs_cons_eq (c : Char) (cs : Str) :
    splitWs (c :: cs) =
      if isJsWhitespace c then
        if wsStart cs then splitWs cs else [] :: splitWs cs
      else
        (splitWs cs).modifyHead (fun w => c :: w) := rfl

theorem splitWs_ne_nil : ∀ s : Str, splitWs s ≠ []
  | [] => by simp [splitWs]
  | c :: cs => by
    have ih := splitWs_ne_nil cs
    rw [splitWs_cons_eq]
    by_cases hc : isJsWhitespace c
    · by_cases hw : wsStart cs
      · simpa [hc, hw] using ih
      · simp [hc, hw]
    · obtain ⟨h0, t0, hht⟩ := List.exists_cons_of_ne_nil ih
      simp [hc, hht]

/-- A whitespace first character always contributes a leading empty segment. -/
theorem splitWs_ws_cons : ∀ (c : Char) (cs : Str), isJsWhitespace c = true →
    ∃ t, splitWs (c :: cs) = [] :: t
  | c, [], hc => by
    refine ⟨[[]], ?_⟩
    simp [splitWs_cons_eq, hc, wsStart, splitWs]
  | c, d :: ds, hc => by
    by_cases hd : isJsWhitespace d
    · obtain ⟨t, ht⟩ := splitWs_ws_cons d ds hd
      refine ⟨t, ?_⟩
      rw [splitWs_cons_eq]
      simpa [hc, wsStart, hd] using ht
    · refine ⟨splitWs (d :: ds), ?_⟩
      rw [splitWs_cons_eq]
      simp [hc, wsStart, hd]

/-- A non-whitespace first character extends the first segment. -/
theorem splitWs_nonws_cons (c : Char) (cs : Str) (hc : isJsWhitespace c = false) :
    ∃ h t, splitWs cs = h :: t ∧ splitWs (c :: cs) = (c :: h) :: t := by
  obtain ⟨h0, t0, hht⟩ := List.exists_cons_of_ne_nil (splitWs_ne_nil cs)
  refine ⟨h0, t0, hht, ?_⟩
  simp [splitWs_cons_eq, hc, hht]

/-- Every character of every segment comes from the input string. -/
theorem splitWs_mem_chars : ∀ (s : Str) (w : Str) (ch : Char),
    w ∈ splitWs s → ch ∈ w → ch ∈ s
  | [], w, ch, hw, hch => by
    simp [splitWs] at hw
    subst hw
    simp at hch
  | c :: cs, w, ch, hw, hch => by
    by_cases hc : isJsWhitespace c
    · have hsub : w ∈ ([] : Str) :: splitWs cs := by
        rw [splitWs_cons_eq] at hw
        by_cases hws : wsStart cs
        · simp only [hc, hws, ite_true, if_true] at hw
          exact List.mem_cons_of_mem _ hw
        · simpa [hc, hws] using hw
      rcases List.mem_cons.mp hsub with h | h
      · subst h
        simp at hch
      · exact List.mem_cons_of_mem _ (splitWs_mem_chars cs w ch h hch)
    · obtain ⟨h0, t0, hcs, hccs⟩ := splitWs_nonws_cons c cs (by simpa using hc)
      rw [hccs] at hw
      rcases List.mem_cons.mp hw with h | h
      · subst h
        rcases List.mem_cons.mp hch with h | h
        · simp [h]
        · have : ch ∈ cs := splitWs_mem_chars cs h0 ch (by rw [hcs]; exact List.mem_cons_self _ _) h
          exact List.mem_cons_of_mem _ this
      · have : ch ∈ cs := splitWs_mem_chars cs w ch (by rw [hcs]; exact List.mem_cons_of_mem _ h) hch
        exact List.mem_cons_of_mem _ this

/-- Segments never contain whitespace characters. -/
theorem splitWs_no_ws : ∀ (s : Str) (w : Str) (ch : Char),
    w ∈ splitWs s → ch ∈ w → isJsWhitespace ch = false
  | [], w, ch, hw, hch => by
    simp [splitWs] at hw
    subst hw
    simp at hch
  | c :: cs, w, ch, hw, hch => by
    by_cases hc : isJsWhitespace c
    · have hsub : w ∈ ([] : Str) :: splitWs cs := by
        rw [splitWs_cons_eq] at hw
        by_cases hws : wsStart cs
        · simp only [hc, hws, ite_true, if_true] at hw
          exact List.mem_cons_of_mem _ hw
        · simpa [hc, hws] using hw
      rcases List.mem_cons.mp hsub with h | h
      · subst h
        simp at hch
      · exact splitWs_no_ws cs w ch h hch
    · obtain ⟨h0, t0, hcs, hccs⟩ := splitWs_nonws_cons c cs (by simpa using hc)
      rw [hccs] at hw
      rcases List.mem_cons.mp hw with h | h
      · subst h
        rcases List.mem_cons.mp hch with h | h
        · subst h
          simpa using hc
        · exact splitWs_no_ws cs h0 ch (by rw [hcs]; exact List.mem_cons_self _ _) h
      · exact splitWs_no_ws cs w ch (by rw [hcs]; exact List.mem_cons_of_mem _ h) hch

/-- A whitespace run at the head of the string acts as a single separator:
the split is one empty segment followed by the split of what follows the
run. -/
theorem splitWs_ws_run : ∀ (c : Char) (cs : Str), isJsWhitespace c = true →
    splitWs (c :: cs) = [] :: splitWs (cs.dropWhile (fun d => isJsWhitespace d))
  | c, [], hc => by
    rw [splitWs_cons_eq]
    simp [hc, wsStart]
  | c, d :: ds, hc => by
    rw [splitWs_cons_eq]
    by_cases hd : isJsWhitespace d
    · have ih := splitWs_ws_run d ds hd
      simp only [hc, ite_true, if_true, wsStart, hd, List.dropWhile_cons]
      exact ih
    · simp [hc, wsStart, hd, List.dropWhile_cons]

/-- Dropping the empty segments of the code-side split yields exactly the
spec-side tokens (the maximal non-whitespace runs, in order). -/
theorem specTokens_cons_eq (c : Char) (cs : Str) :
    specTokens (c :: cs) =
      if isJsWhitespace c then specTokens cs
      else
        if tokenBreak cs then [c] :: specTokens cs
        else (specTokens cs).modifyHead (fun w => c :: w) := rfl

theorem splitWs_filter_eq_specTokens :
    ∀ s : Str, (splitWs s).filter (fun w => !w.isEmpty) = specTokens s
  | [] => by simp [splitWs, specTokens]
  | c :: cs => by
    have ih := splitWs_filter_eq_specTokens cs
    rw [splitWs_cons_eq, specTokens_cons_eq]
    by_cases hc : isJsWhitespace c
    · by_cases hws : wsStart cs
      · simp [hc, hws, ih]
      · simp [hc, hws, ih]
    · match cs with
      | [] =>
        simp [splitWs, specTokens, hc, tokenBreak]
      | d :: ds =>
        by_cases hd : isJsWhitespace d
        · obtain ⟨t, ht⟩ := splitWs_ws_cons d ds hd
          rw [ht] at ih ⊢
          simp only [List.filter_cons, List.isEmpty_nil, Bool.not_true,
            Bool.false_eq_true, if_false] at ih
          simp [hc, tokenBreak, hd, ih]
        · obtain ⟨h0, t0, hds, hdds⟩ := splitWs_nonws_cons d ds (by simpa using hd)
          rw [hdds] at ih ⊢
          simp only [List.filter_cons, List.isEmpty_cons, Bool.not_false, if_true] at ih
          rw [← ih]
          simp [hc, tokenBreak, hd]

/-! ### Structure of the comparison loop -/

theorem consStep_eq_nil {i : Nat} {o c : Str} {rest : List AnalysisItem} :
    consStep i o c rest = [] ↔ o = c ∧ rest = [] := by
  unfold consStep
  split
  · next h => simp [h]
  · next h => simp [h]

theorem mem_consStep {i : Nat} {o c : Str} {rest : List AnalysisItem} {a : AnalysisItem}
    (h : a ∈ consStep i o c rest) :
    (o ≠ c ∧ a = ⟨i, o, c, (classifyChange o c).1, (classifyChange o c).2⟩) ∨ a ∈ rest := by
  unfold consStep at h
  split at h
  · exact Or.inr h
  · next hne =>
    rcases List.mem_cons.mp h with h | h
    · exact Or.inl ⟨hne, h⟩
    · exact Or.inr h

/-- Every annotation of the corrected-side tail has an empty original word,
carries a word of the corrected list, differs in its two words, takes its
type and suggestion from the decision chain, and sits at position at least
`i`. -/
theorem mem_analyzeTailC : ∀ (i : Nat) (cs : List Str) (a : AnalysisItem),
    a ∈ analyzeTailC i cs →
    a.original = [] ∧ a.corrected ∈ cs ∧ a.original ≠ a.corrected ∧
    a.type = (classifyChange a.original a.corrected).1 ∧
    a.suggestion = (classifyChange a.original a.corrected).2 ∧ i ≤ a.position
  | _, [], a, h => by simp [analyzeTailC] at h
  | i, c :: cs, a, h => by
    rcases mem_consStep h with ⟨hne, rfl⟩ | h
    · exact ⟨rfl, List.mem_cons_self _ _, hne, rfl, rfl, Nat.le_refl _⟩
    · obtain ⟨h1, h2, h3, h4, h5, h6⟩ := mem_analyzeTailC (i + 1) cs a h
      exact ⟨h1, List.mem_cons_of_mem _ h2, h3, h4, h5, Nat.le_of_succ_le h6⟩

/-- Symmetric fact for the original-side tail. -/
theorem mem_analyzeTailO : ∀ (i : Nat) (os : List Str) (a : AnalysisItem),
    a ∈ analyzeTailO i os →
    a.corrected = [] ∧ a.original ∈ os ∧ a.original ≠ a.corrected ∧
    a.type = (classifyChange a.original a.corrected).1 ∧
    a.suggestion = (classifyChange a.original a.corrected).2 ∧ i ≤ a.position
  | _, [], a, h => by simp [analyzeTailO] at h
  | i, o :: os, a, h => by
    rcases mem_consStep h with ⟨hne, rfl⟩ | h
    · exact ⟨rfl, List.mem_cons_self _ _, hne, rfl, rfl, Nat.le_refl _⟩
    · obtain ⟨h1, h2, h3, h4, h5, h6⟩ := mem_analyzeTailO (i + 1) os a h
      exact ⟨h1, List.mem_cons_of_mem _ h2, h3, h4, h5, Nat.le_of_succ_le h6⟩

/-- Master membership fact about the loop: every annotation holds words drawn
from the two (padded) word lists, its words differ, and its type and
suggestion come from the decision chain applied to its own words. -/
theorem mem_analyzeWords : ∀ (os cs : List Str) (i : Nat) (a : AnalysisItem),
    a ∈ analyzeWords i os cs →
    (a.original ∈ os ∨ a.original = []) ∧ (a.corrected ∈ cs ∨ a.corrected = []) ∧
    a.original ≠ a.corrected ∧
    a.type = (classifyChange a.original a.corrected).1 ∧
    a.suggestion = (classifyChange a.original a.corrected).2 ∧ i ≤ a.position
  | [], cs, i, a, h => by
    obtain ⟨h1, h2, h3, h4, h5, h6⟩ := mem_analyzeTailC i cs a h
    exact ⟨Or.inr h1, Or.inl h2, h3, h4, h5, h6⟩
  | o :: os, [], i, a, h => by
    rcases mem_consStep h with ⟨hne, rfl⟩ | h
    · exact ⟨Or.inl (List.mem_cons_self _ _), Or.inr rfl, hne, rfl, rfl, Nat.le_refl _⟩
    · obtain ⟨h1, h2, h3, h4, h5, h6⟩ := mem_analyzeTailO (i + 1) os a h
      exact ⟨Or.inl (List.mem_cons_of_mem _ h2), Or.inr h1, h3, h4, h5, Nat.le_of_succ_le h6⟩
  | o :: os, c :: cs, i, a, h => by
    rcases mem_consStep h with ⟨hne, rfl⟩ | h
    · exact ⟨Or.inl (List.mem_cons_self _ _), Or.inl (List.mem_cons_self _ _), hne,
        rfl, rfl, Nat.le_refl _⟩
    · obtain ⟨h1, h2, h3, h4, h5, h6⟩ := mem_analyzeWords os cs (i + 1) a h
      refine ⟨?_, ?_, h3, h4, h5, Nat.le_of_succ_le h6⟩
      · rcases h1 with h1 | h1
        · exact Or.inl (List.mem_cons_of_mem _ h1)
        · exact Or.inr h1
      · rcases h2 with h2 | h2
        · exact Or.inl (List.mem_cons_of_mem _ h2)
        · exact Or.inr h2

theorem pairwise_analyzeTailC : ∀ (i : Nat) (cs : List Str),
    List.Pairwise (fun a b => a.position < b.position) (analyzeTailC i cs)
  | _, [] => by simp [analyzeTailC]
  | i, c :: cs => by
    have ih := pairwise_analyzeTailC (i + 1) cs
    unfold analyzeTailC consStep
    split
    · exact ih
    · refine List.Pairwise.cons ?_ ih
      intro b hb
      have := (mem_analyzeTailC (i + 1) cs b hb).2.2.2.2.2
      simpa using this

theorem pairwise_analyzeTailO : ∀ (i : Nat) (os : List Str),
    List.Pairwise (fun a b => a.position < b.position) (analyzeTailO i os)
  | _, [] => by simp [analyzeTailO]
  | i, o :: os => by
    have ih := pairwise_analyzeTailO (i + 1) os
    unfold analyzeTailO consStep
    split
    · exact ih
    · refine List.Pairwise.cons ?_ ih
      intro b hb
      have := (mem_analyzeTailO (i + 1) os b hb).2.2.2.2.2
      simpa using this

/-- The loop emits its annotations in strictly increasing position order. -/
theorem pairwise_analyzeWords : ∀ (os cs : List Str) (i : Nat),
    List.Pairwise (fun a b => a.position < b.position) (analyzeWords i os cs)
  | [], cs, i => pairwise_analyzeTailC i cs
  | o :: os, [], i => by
    have ih := pairwise_analyzeTailO (i + 1) os
    unfold analyzeWords consStep
    split
    · exact ih
    · refine List.Pairwise.cons ?_ ih
      intro b hb
      have := (mem_analyzeTailO (i + 1) os b hb).2.2.2.2.2
      simpa using this
  | o :: os, c :: cs, i => by
    have ih := pairwise_analyzeWords os cs (i + 1)
    unfold analyzeWords consStep
    split
    · exact ih
    · refine List.Pairwise.cons ?_ ih
      intro b hb
      have := (mem_analyzeWords os cs (i + 1) b hb).2.2.2.2.2
      simpa using this

theorem length_consStep (i : Nat) (o c : Str) (rest : List AnalysisItem) :
    (consStep i o c rest).length ≤ rest.length + 1 := by
  unfold consStep
  split
  · exact Nat.le_succ _
  · simp

theorem length_analyzeTailC : ∀ (i : Nat) (cs : List Str),
    (analyzeTailC i cs).length ≤ cs.length
  | _, [] => Nat.le_refl _
  | i, c :: cs => by
    calc (consStep i [] c (analyzeTailC (i + 1) cs)).length
        ≤ (analyzeTailC (i + 1) cs).length + 1 := length_consStep _ _ _ _
      _ ≤ cs.length + 1 := Nat.succ_le_succ (length_analyzeTailC (i + 1) cs)

theorem length_analyzeTailO : ∀ (i : Nat) (os : List Str),
    (analyzeTailO i os).length ≤ os.length
  | _, [] => Nat.le_refl _
  | i, o :: os => by
    calc (consStep i o [] (analyzeTailO (i + 1) os)).length
        ≤ (analyzeTailO (i + 1) os).length + 1 := length_consStep _ _ _ _
      _ ≤ os.length + 1 := Nat.succ_le_succ (length_analyzeTailO (i + 1) os)

/-- The loop runs once per index below the longer list, pushing at most one
annotation per iteration. -/
theorem length_analyzeWords : ∀ (os cs : List Str) (i : Nat),
    (analyzeWords i os cs).length ≤ Nat.max os.length cs.length
  | [], cs, i => by
    simpa using Nat.le_trans (length_analyzeTailC i cs) (Nat.le_max_right 0 cs.length)
  | o :: os, [], i => by
    calc (consStep i o [] (analyzeTailO (i + 1) os)).length
        ≤ (analyzeTailO (i + 1) os).length + 1 := length_consStep _ _ _ _
      _ ≤ os.length + 1 := Nat.succ_le_succ (length_analyzeTailO (i + 1) os)
      _ ≤ Nat.max (os.length + 1) 0 := Nat.le_max_left _ _
  | o :: os, c :: cs, i => by
    calc (consStep i o c (analyzeWords (i + 1) os cs)).length
        ≤ (analyzeWords (i + 1) os cs).length + 1 := length_consStep _ _ _ _
      _ ≤ Nat.max os.length cs.length + 1 := Nat.succ_le_succ (length_analyzeWords os cs (i + 1))
      _ ≤ Nat.max (os.length + 1) (cs.length + 1) := Nat.le_of_eq (Nat.succ_max_succ _ _).symm

theorem analyzeTailC_eq_nil : ∀ (i : Nat) (cs : List Str),
    analyzeTailC i cs = [] ↔ ∀ j : Nat, cs.getD j [] = ([] : Str)
  | _, [] => by simp [analyzeTailC]
  | i, c :: cs => by
    rw [show analyzeTailC i (c :: cs) = consStep i [] c (analyzeTailC (i + 1) cs) from rfl,
      consStep_eq_nil, analyzeTailC_eq_nil (i + 1) cs]
    constructor
    · rintro ⟨h1, h2⟩ j
      cases j with
      | zero => simpa using h1.symm
      | succ j => simpa using h2 j
    · intro h
      have h0 := h 0
      simp only [List.getD_cons_zero] at h0
      exact ⟨h0.symm, fun j => by simpa using h (j + 1)⟩

theorem analyzeTailO_eq_nil : ∀ (i : Nat) (os : List Str),
    analyzeTailO i os = [] ↔ ∀ j : Nat, os.getD j [] = ([] : Str)
  | _, [] => by simp [analyzeTailO]
  | i, o :: os => by
    rw [show analyzeTailO i (o :: os) = consStep i o [] (analyzeTailO (i + 1) os) from rfl,
      consStep_eq_nil, analyzeTailO_eq_nil (i + 1) os]
    constructor
    · rintro ⟨h1, h2⟩ j
      cases j with
      | zero => simpa using h1
      | succ j => simpa using h2 j
    · intro h
      refine ⟨by simpa using h 0, fun j => by simpa using h (j + 1)⟩

/-- The loop emits nothing exactly when the two padded word lists agree at
every index. -/
theorem analyzeWords_eq_nil : ∀ (os cs : List Str) (i : Nat),
    analyzeWords i os cs = [] ↔ ∀ j : Nat, os.getD j [] = cs.getD j []
  | [], cs, i => by
    rw [show analyzeWords i [] cs = analyzeTailC i cs from rfl, analyzeTailC_eq_nil i cs]
    constructor
    · intro h j
      simpa using (h j).symm
    · intro h j
      simpa using (h j).symm
  | o :: os, [], i => by
    rw [show analyzeWords i (o :: os) [] = consStep i o [] (analyzeTailO (i + 1) os) from rfl,
      consStep_eq_nil, analyzeTailO_eq_nil (i + 1) os]
    constructor
    · rintro ⟨h1, h2⟩ j
      cases j with
      | zero => simpa using h1
      | succ j => simpa using h2 j
    · intro h
      refine ⟨by simpa using h 0, fun j => by simpa using h (j + 1)⟩
  | o :: os, c :: cs, i => by
    rw [show analyzeWords i (o :: os) (c :: cs) = consStep i o c (analyzeWords (i + 1) os cs)
        from rfl,
      consStep_eq_nil, analyzeWords_eq_nil os cs (i + 1)]
    constructor
    · rintro ⟨h1, h2⟩ j
      cases j with
      | zero => simpa using h1
      | succ j => simpa using h2 j
    · intro h
      refine ⟨by simpa using h 0, fun j => by simpa using h (j + 1)⟩

/-- Equal word lists produce no annotations. -/
theorem analyzeWords_diag : ∀ (ws : List Str) (i : Nat), analyzeWords i ws ws = []
  | [], _ => rfl
  | w :: ws, i => by
    rw [show analyzeWords i (w :: ws) (w :: ws) = consStep i w w (analyzeWords (i + 1) ws ws)
        from rfl]
    unfold consStep
    simp [analyzeWords_diag ws (i + 1)]

/-! ### The three variants define one function -/

theorem workerJs_analyzeTailC_eq : ∀ (i : Nat) (cs : List Str),
    WorkerJs.analyzeTailC i cs = analyzeTailC i cs
  | _, [] => rfl
  | i, c :: cs => by
    rw [show WorkerJs.analyzeTailC i (c :: cs)
        = WorkerJs.consStep i [] c (WorkerJs.analyzeTailC (i + 1) cs) from rfl,
      workerJs_analyzeTailC_eq (i + 1) cs]
    rfl

theorem workerJs_analyzeTailO_eq : ∀ (i : Nat) (os : List Str),
    WorkerJs.analyzeTailO i os = analyzeTailO i os
  | _, [] => rfl
  | i, o :: os => by
    rw [show WorkerJs.analyzeTailO i (o :: os)
        = WorkerJs.consStep i o [] (WorkerJs.analyzeTailO (i + 1) os) from rfl,
      workerJs_analyzeTailO_eq (i + 1) os]
    rfl

theorem workerJs_analyzeWords_eq : ∀ (os cs : List Str) (i : Nat),
    WorkerJs.analyzeWords i os cs = analyzeWords i os cs
  | [], cs, i => workerJs_analyzeTailC_eq i cs
  | o :: os, [], i => by
    rw [show WorkerJs.analyzeWords i (o :: os) []
        = WorkerJs.consStep i o [] (WorkerJs.analyzeTailO (i + 1) os) from rfl,
      workerJs_analyzeTailO_eq (i + 1) os]
    rfl
  | o :: os, c :: cs, i => by
    rw [show WorkerJs.analyzeWords i (o :: os) (c :: cs)
        = WorkerJs.consStep i o c (WorkerJs.analyzeWords (i + 1) os cs) from rfl,
      workerJs_analyzeWords_eq os cs (i + 1)]
    rfl

theorem workerTs_analyzeTailC_eq : ∀ (i : Nat) (cs : List Str),
    WorkerTs.analyzeTailC i cs = analyzeTailC i cs
  | _, [] => rfl
  | i, c :: cs => by
    rw [show WorkerTs.analyzeTailC i (c :: cs)
        = WorkerTs.consStep i [] c (WorkerTs.analyzeTailC (i + 1) cs) from rfl,
      workerTs_analyzeTailC_eq (i + 1) cs]
    rfl

theorem workerTs_analyzeTailO_eq : ∀ (i : Nat) (os : List Str),
    WorkerTs.analyzeTailO i os = analyzeTailO i os
  | _, [] => rfl
  | i, o :: os => by
    rw [show WorkerTs.analyzeTailO i (o :: os)
        = WorkerTs.consStep i o [] (WorkerTs.analyzeTailO (i + 1) os) from rfl,
      workerTs_analyzeTailO_eq (i + 1) os]
    rfl

theorem workerTs_analyzeWords_eq : ∀ (os cs : List Str) (i : Nat),
    WorkerTs.analyzeWords i os cs = analyzeWords i os cs
  | [], cs, i => workerTs_analyzeTailC_eq i cs
  | o :: os, [], i => by
    rw [show WorkerTs.analyzeWords i (o :: os) []
        = WorkerTs.consStep i o [] (WorkerTs.analyzeTailO (i + 1) os) from rfl,
      workerTs_analyzeTailO_eq (i + 1) os]
    rfl
  | o :: os, c :: cs, i => by
    rw [show WorkerTs.analyzeWords i (o :: os) (c :: cs)
        = WorkerTs.consStep i o c (WorkerTs.analyzeWords (i + 1) os cs) from rfl,
      workerTs_analyzeWords_eq os cs (i + 1)]
    rfl

/-! ### The decision chain -/

theorem classifyChange_not_unknown (o c : Str) :
    (classifyChange o c).1 ≠ "unknown".toList := by
  unfold classifyChange
  split_ifs
  · exact (by decide : ("missing_word".toList : Str) ≠ "unknown".toList)
  · exact (by decide : ("extra_word".toList : Str) ≠ "unknown".toList)
  · exact (by decide : ("spelling".toList : Str) ≠ "unknown".toList)
  · exact (by decide : ("capitalization".toList : Str) ≠ "unknown".toList)
  · exact (by decide : ("grammar".toList : Str) ≠ "unknown".toList)

theorem classifyChange_ne_capitalization (o c : Str) (h : o ≠ c) :
    (classifyChange o c).1 ≠ "capitalization".toList := by
  unfold classifyChange
  split_ifs with h1 h2 h3 h4
  · exact (by decide : ("missing_word".toList : Str) ≠ "capitalization".toList)
  · exact (by decide : ("extra_word".toList : Str) ≠ "capitalization".toList)
  · exact (by decide : ("spelling".toList : Str) ≠ "capitalization".toList)
  · exact absurd (h4.1.trans h4.2.symm) h
  · exact (by decide : ("grammar".toList : Str) ≠ "capitalization".toList)

/-! ### The spelling heuristic as an exact ratio -/

theorem div_gt_point_six_iff {x m : Nat} (hm : 0 < m) :
    ((x : ℚ) / (m : ℚ) > 0.6) ↔ 5 * x > 3 * m := by
  have hm' : (0 : ℚ) < (m : ℚ) := by exact_mod_cast hm
  rw [gt_iff_lt, show (0.6 : ℚ) = 3 / 5 by norm_num, div_lt_div_iff₀ (by norm_num) hm']
  constructor
  · intro h
    have : (3 * m : ℚ) < 5 * x := by linarith
    exact_mod_cast this
  · intro h
    have : (3 * m : ℚ) < 5 * x := by exact_mod_cast h
    linarith

/-- Under the loop's guard (the two words differ), the decision chain is the
four-way first-match order of the specification: the capitalization test of
the source can never succeed, so its branch merges into the final grammar
default. -/
theorem classifyChange_spec (o c : Str) (h : o ≠ c) :
    if o = [] ∧ c ≠ [] then
      classifyChange o c = ("missing_word".toList, "Add \"".toList ++ c ++ "\"".toList)
    else if c = [] then
      classifyChange o c = ("extra_word".toList, "Remove \"".toList ++ o ++ "\"".toList)
    else if isSpellingError o c then
      classifyChange o c =
        ("spelling".toList, "\"".toList ++ o ++ "\" → \"".toList ++ c ++ "\"".toList)
    else
      classifyChange o c =
        ("grammar".toList, "\"".toList ++ o ++ "\" → \"".toList ++ c ++ "\"".toList) := by
  split_ifs with g1 g2 g3
  · unfold classifyChange
    rw [if_pos g1]
  · have ho : o ≠ [] := fun h0 => h (h0.trans g2.symm)
    unfold classifyChange
    rw [if_neg g1, if_pos ⟨ho, g2⟩]
  · have hc2 : ¬(o ≠ [] ∧ c = []) := fun hk => g2 hk.2
    unfold classifyChange
    rw [if_neg g1, if_neg hc2, if_pos g3]
  · have hc2 : ¬(o ≠ [] ∧ c = []) := fun hk => g2 hk.2
    have hi : ¬(o = "i".toList ∧ c = "i".toList) := fun hk => h (hk.1.trans hk.2.symm)
    unfold classifyChange
    rw [if_neg g1, if_neg hc2, if_neg (by simpa using g3), if_neg hi]

/-! ### Lower-cased strings stay lower-cased -/

theorem mem_jsToLower_not_upper {s : Str} {ch : Char} (h : ch ∈ jsToLower s) :
    ch.isUpper = false := by
  unfold jsToLower at h
  obtain ⟨x, -, rfl⟩ := List.mem_map.mp h
  exact char_isUpper_toLower x

theorem jsToLower_fixed {w : Str} (h : ∀ ch ∈ w, ch.isUpper = false) : jsToLower w = w := by
  unfold jsToLower
  induction w with
  | nil => rfl
  | cons c cs ih =>
    simp only [List.map_cons]
    rw [char_toLower_of_not_upper (h c (List.mem_cons_self _ _)),
      ih (fun ch hch => h ch (List.mem_cons_of_mem _ hch))]

theorem token_chars_not_upper {s : Str} {w : Str} (hw : w ∈ splitWs (jsToLower s)) :
    ∀ ch ∈ w, ch.isUpper = false :=
  fun _ hch => mem_jsToLower_not_upper (splitWs_mem_chars _ _ _ hw hch)

/-! ### The claims -/

/-- Claim C1: at every position where the lowercased tokens differ, the
annotation's category and suggestion follow the fixed first-match order
missing_word (when the original token is empty and the corrected one is not),
then extra_word (when the corrected token is empty), then spelling (when the
heuristic accepts), else grammar; and the two insertion/deletion examples
return exactly one annotation at position 2 with the stated category and
suggestion. -/
theorem claim1_classification_order :
    (∀ original corrected : Str, ∀ a ∈ analyzeChanges original corrected,
      if a.original = [] ∧ a.corrected ≠ [] then
        a.type = "missing_word".toList ∧
        a.suggestion = "Add \"".toList ++ a.corrected ++ "\"".toList
      else if a.corrected = [] then
        a.type = "extra_word".toList ∧
        a.suggestion = "Remove \"".toList ++ a.original ++ "\"".toList
      else if isSpellingError a.original a.corrected then
        a.type = "spelling".toList ∧
        a.suggestion = "\"".toList ++ a.original ++ "\" → \"".toList ++ a.corrected ++ "\"".toList
      else
        a.type = "grammar".toList ∧
        a.suggestion = "\"".toList ++ a.original ++ "\" → \"".toList ++ a.corrected ++ "\"".toList) ∧
    analyzeChanges "hello world".toList "hello world extra".toList =
      [⟨2, [], "extra".toList, "missing_word".toList, "Add \"extra\"".toList⟩] ∧
    analyzeChanges "hello world extra".toList "hello world".toList =
      [⟨2, "extra".toList, [], "extra_word".toList, "Remove \"extra\"".toList⟩] := by
  refine ⟨?_, by decide, by decide⟩
  intro original corrected a ha
  obtain ⟨-, -, hne, htype, hsugg, -⟩ := mem_analyzeWords _ _ 0 a ha
  have hcs := classifyChange_spec a.original a.corrected hne
  rw [htype, hsugg]
  split_ifs at hcs ⊢ with g1 g2 g3 <;> rw [hcs] <;> exact ⟨rfl, rfl⟩

theorem claim1_witness :
    ((⟨2, [], "extra".toList, "missing_word".toList, "Add \"extra\"".toList⟩ : AnalysisItem) ∈
      analyzeChanges "hello world".toList "hello world extra".toList) ∧
    (("missing_word".toList : Str) = "missing_word".toList ∧
      ("Add \"extra\"".toList : Str) = "Add \"".toList ++ "extra".toList ++ "\"".toList) :=
  ⟨by decide,
    claim1_classification_order.1 "hello world".toList "hello world extra".toList
      ⟨2, [], "extra".toList, "missing_word".toList, "Add \"extra\"".toList⟩ (by decide)⟩

/-- Claim C2: the spelling heuristic rejects empty words, rejects a length
difference above 2, and otherwise accepts exactly when the count of equal
aligned character positions over the shorter length exceeds 0.6; in
particular it accepts cat versus bat. -/
theorem claim2_spelling_heuristic :
    ∀ word1 word2 : Str,
      ((word1 = [] ∨ word2 = []) → isSpellingError word1 word2 = false) ∧
      (((word1.length : Int) - (word2.length : Int)).natAbs > 2 →
        isSpellingError word1 word2 = false) ∧
      (word1 ≠ [] → word2 ≠ [] →
        ((word1.length : Int) - (word2.length : Int)).natAbs ≤ 2 →
        (isSpellingError word1 word2 = true ↔
          ((commonCharsCount word1 word2 : ℚ) /
            (Nat.min word1.length word2.length : ℚ) > 0.6))) ∧
      isSpellingError "cat".toList "bat".toList = true := by
  intro word1 word2
  refine ⟨?_, ?_, ?_, by decide⟩
  · intro h
    unfold isSpellingError
    rw [if_pos h]
  · intro h
    unfold isSpellingError
    by_cases he : word1 = [] ∨ word2 = []
    · rw [if_pos he]
    · rw [if_neg he, if_pos h]
  · intro h1 h2 h3
    unfold isSpellingError
    rw [if_neg (by tauto), if_neg (by omega), decide_eq_true_eq]
    have hm : 0 < Nat.min word1.length word2.length :=
      Nat.lt_min.mpr ⟨List.length_pos.mpr h1, List.length_pos.mpr h2⟩
    exact (div_gt_point_six_iff hm).symm

theorem claim2_witness :
    ("cat".toList : Str) ≠ [] ∧ ("bat".toList : Str) ≠ [] ∧
    ((("cat".toList : Str).length : Int) - (("bat".toList : Str).length : Int)).natAbs ≤ 2 ∧
    (isSpellingError "cat".toList "bat".toList = true ↔
      ((commonCharsCount "cat".toList "bat".toList : ℚ) /
        (Nat.min ("cat".toList : Str).length ("bat".toList : Str).length : ℚ) > 0.6)) :=
  ⟨by decide, by decide, by decide,
    (claim2_spelling_heuristic "cat".toList "bat".toList).2.2.1 (by decide) (by decide) (by decide)⟩

/-- Claim C3 counterexample: the code-side tokenizer does not discard empty
tokens.  The empty string yields one empty token (not none), a whitespace-only
string yields two, leading whitespace contributes a leading empty token, and
the retained empty token is visible in the output of the analyzer: a single
leading space already produces two annotations against the same word. -/
theorem claim3_counterexample :
    ¬ (splitWs (jsToLower "".toList) = [] ∧ splitWs (jsToLower " ".toList) = []) ∧
    splitWs (jsToLower "".toList) = [[]] ∧
    splitWs (jsToLower " ".toList) = [[], []] ∧
    splitWs (jsToLower " a".toList) = [[], ['a']] ∧
    analyzeChanges " a".toList "a".toList =
      [⟨0, [], ['a'], "missing_word".toList, "Add \"a\"".toList⟩,
       ⟨1, ['a'], [], "extra_word".toList, "Remove \"a\"".toList⟩] :=
  ⟨by decide, by decide, by decide, by decide, by decide⟩

/-- Claim C3 (amended): tokenization splits the lowercased string on runs of
one-or-more whitespace characters but keeps empty boundary segments: every
token is whitespace-free, the nonempty tokens are exactly the maximal runs of
non-whitespace characters (the data-model tokens, `specTokens`), a whitespace
run acts as a single separator contributing one empty segment, the empty
string yields one empty token, a whitespace-only string yields two, and
leading or trailing whitespace contributes an empty boundary token. -/
theorem claim3_amended :
    (∀ s : Str, ∀ w ∈ splitWs s, ∀ ch ∈ w, isJsWhitespace ch = false) ∧
    (∀ s : Str, (splitWs s).filter (fun w => !w.isEmpty) = specTokens s) ∧
    (∀ (c : Char) (cs : Str), isJsWhitespace c = true →
      splitWs (c :: cs) = [] :: splitWs (cs.dropWhile (fun d => isJsWhitespace d))) ∧
    splitWs [] = [[]] ∧
    splitWs " ".toList = [[], []] ∧
    splitWs " a ".toList = [[], ['a'], []] :=
  ⟨fun s w hw ch hch => splitWs_no_ws s w ch hw hch,
   splitWs_filter_eq_specTokens,
   splitWs_ws_run,
   rfl, by decide, by decide⟩

theorem claim3_witness :
    ((['a'] : Str) ∈ splitWs " a ".toList ∧ 'a' ∈ (['a'] : Str) ∧
      isJsWhitespace 'a' = false) ∧
    (isJsWhitespace ' ' = true ∧
      splitWs (' ' :: "a".toList) =
        [] :: splitWs ("a".toList.dropWhile (fun d => isJsWhitespace d))) :=
  ⟨⟨by decide, by decide, claim3_amended.1 " a ".toList ['a'] (by decide) 'a' (by decide)⟩,
   ⟨by decide, claim3_amended.2.2.1 ' ' "a".toList (by decide)⟩⟩

/-- Claim C4: analyzing a string against itself yields no annotations, and
more generally every emitted annotation has differing (lowercased) words. -/
theorem claim4_identity_no_annotations :
    (∀ s : Str, analyzeChanges s s = []) ∧
    (∀ original corrected : Str, ∀ a ∈ analyzeChanges original corrected,
      a.original ≠ a.corrected) :=
  ⟨fun _ => analyzeWords_diag _ 0,
   fun _ _ a ha => (mem_analyzeWords _ _ 0 a ha).2.2.1⟩

theorem claim4_witness :
    analyzeChanges "hello world".toList "hello world".toList = [] ∧
    ((⟨0, "cat".toList, "bat".toList, "spelling".toList,
        "\"".toList ++ "cat".toList ++ "\" → \"".toList ++ "bat".toList ++ "\"".toList⟩ :
        AnalysisItem) ∈ analyzeChanges "cat".toList "bat".toList) ∧
    ("cat".toList : Str) ≠ "bat".toList :=
  ⟨claim4_identity_no_annotations.1 "hello world".toList, by decide,
    claim4_identity_no_annotations.2 "cat".toList "bat".toList
      ⟨0, "cat".toList, "bat".toList, "spelling".toList,
        "\"".toList ++ "cat".toList ++ "\" → \"".toList ++ "bat".toList ++ "\"".toList⟩
      (by decide)⟩

/-- Claim C5 counterexample: with the data-model token count (non-empty
whitespace-delimited tokens), the annotation count can exceed the bound: a
leading space makes the analyzer emit three annotations while the two inputs
hold two and one tokens. -/
theorem claim5_counterexample :
    (analyzeChanges " a b".toList "x".toList).length = 3 ∧
    (specTokens " a b".toList).length = 2 ∧
    (specTokens "x".toList).length = 1 ∧
    ¬ ((analyzeChanges " a b".toList "x".toList).length ≤
        Nat.max (specTokens " a b".toList).length (specTokens "x".toList).length) :=
  ⟨by decide, by decide, by decide, by decide⟩

/-- Claim C5 (amended): the annotation count is bounded by the longer of the
two split word lists — the lists produced by splitting on whitespace runs,
which unlike the data-model token count retain empty boundary segments. -/
theorem claim5_amended : ∀ original corrected : Str,
    (analyzeChanges original corrected).length ≤
      Nat.max (splitWs (jsToLower original)).length (splitWs (jsToLower corrected)).length :=
  fun _ _ => length_analyzeWords _ _ 0

/-- Claim C6: no annotation ever carries the capitalization category: the
branch requires both words to equal the single letter i, but equal words are
skipped before classification, so the branch is unreachable. -/
theorem claim6_no_capitalization : ∀ original corrected : Str,
    ∀ a ∈ analyzeChanges original corrected, a.type ≠ "capitalization".toList := by
  intro original corrected a ha
  obtain ⟨-, -, hne, htype, -, -⟩ := mem_analyzeWords _ _ 0 a ha
  rw [htype]
  exact classifyChange_ne_capitalization _ _ hne

theorem claim6_witness :
    ((⟨0, ['i'], "hi".toList, "grammar".toList,
        "\"".toList ++ "i".toList ++ "\" → \"".toList ++ "hi".toList ++ "\"".toList⟩ :
        AnalysisItem) ∈ analyzeChanges "i".toList "hi".toList) ∧
    ("grammar".toList : Str) ≠ "capitalization".toList :=
  ⟨by decide,
    claim6_no_capitalization "i".toList "hi".toList
      ⟨0, ['i'], "hi".toList, "grammar".toList,
        "\"".toList ++ "i".toList ++ "\" → \"".toList ++ "hi".toList ++ "\"".toList⟩
      (by decide)⟩

/-- Claim C7: annotations come out in strictly ascending position order (so at
most one per position), and the output is empty exactly when the two padded
word lists agree at every aligned index. -/
theorem claim7_ordered_output : ∀ original corrected : Str,
    List.Pairwise (fun a b => a.position < b.position) (analyzeChanges original corrected) ∧
    (analyzeChanges original corrected = [] ↔
      ∀ i : Nat, (splitWs (jsToLower original)).getD i [] =
        (splitWs (jsToLower corrected)).getD i []) :=
  fun _ _ => ⟨pairwise_analyzeWords _ _ 0, analyzeWords_eq_nil _ _ 0⟩

/-- Claim C8: the three transcribed variants (Pages Function, Worker
JavaScript, Worker TypeScript) agree on every pair of inputs. -/
theorem claim8_variants_agree : ∀ original corrected : Str,
    WorkerJs.analyzeChanges original corrected = analyzeChanges original corrected ∧
    WorkerTs.analyzeChanges original corrected = analyzeChanges original corrected :=
  fun _ _ => ⟨workerJs_analyzeWords_eq _ _ 0, workerTs_analyzeWords_eq _ _ 0⟩

/-- Claim C9: no annotation ever carries the unknown category: the decision
chain is exhaustive, so the initial value is always overwritten. -/
theorem claim9_no_unknown : ∀ original corrected : Str,
    ∀ a ∈ analyzeChanges original corrected, a.type ≠ "unknown".toList := by
  intro original corrected a ha
  obtain ⟨-, -, -, htype, -, -⟩ := mem_analyzeWords _ _ 0 a ha
  rw [htype]
  exact classifyChange_not_unknown _ _

theorem claim9_witness :
    ((⟨0, "aaa".toList, "bbb".toList, "grammar".toList,
        "\"".toList ++ "aaa".toList ++ "\" → \"".toList ++ "bbb".toList ++ "\"".toList⟩ :
        AnalysisItem) ∈ analyzeChanges "aaa".toList "bbb".toList) ∧
    ("grammar".toList : Str) ≠ "unknown".toList :=
  ⟨by decide,
    claim9_no_unknown "aaa".toList "bbb".toList
      ⟨0, "aaa".toList, "bbb".toList, "grammar".toList,
        "\"".toList ++ "aaa".toList ++ "\" → \"".toList ++ "bbb".toList ++ "\"".toList⟩
      (by decide)⟩

/-- Claim C10: every annotation's original and corrected fields are tokens of
the lowercased inputs (or the empty string); they are fixed points of
lower-casing and contain no uppercase letter, even when the input words were
capitalized. -/
theorem claim10_fields_lowercased : ∀ original corrected : Str,
    ∀ a ∈ analyzeChanges original corrected,
      (a.original ∈ splitWs (jsToLower original) ∨ a.original = []) ∧
      (a.corrected ∈ splitWs (jsToLower corrected) ∨ a.corrected = []) ∧
      jsToLower a.original = a.original ∧ jsToLower a.corrected = a.corrected ∧
      (∀ ch ∈ a.original, ch.isUpper = false) ∧
      (∀ ch ∈ a.corrected, ch.isUpper = false) := by
  intro original corrected a ha
  obtain ⟨h1, h2, -, -, -, -⟩ := mem_analyzeWords _ _ 0 a ha
  have ho : ∀ ch ∈ a.original, ch.isUpper = false := by
    rcases h1 with h1 | h1
    · exact token_chars_not_upper h1
    · rw [h1]
      intro ch hch
      simp at hch
  have hc : ∀ ch ∈ a.corrected, ch.isUpper = false := by
    rcases h2 with h2 | h2
    · exact token_chars_not_upper h2
    · rw [h2]
      intro ch hch
      simp at hch
  exact ⟨h1, h2, jsToLower_fixed ho, jsToLower_fixed hc, ho, hc⟩

theorem claim10_witness :
    ((⟨0, "cat".toList, "bat".toList, "spelling".toList,
        "\"".toList ++ "cat".toList ++ "\" → \"".toList ++ "bat".toList ++ "\"".toList⟩ :
        AnalysisItem) ∈ analyzeChanges "Cat".toList "Bat".toList) ∧
    jsToLower "cat".toList = "cat".toList ∧ jsToLower "bat".toList = "bat".toList :=
  ⟨by decide,
    (claim10_fields_lowercased "Cat".toList "Bat".toList
      ⟨0, "cat".toList, "bat".toList, "spelling".toList,
        "\"".toList ++ "cat".toList ++ "\" → \"".toList ++ "bat".toList ++ "\"".toList⟩
      (by decide)).2.2.1,
    (claim10_fields_lowercased "Cat".toList "Bat".toList
      ⟨0, "cat".toList, "bat".toList, "spelling".toList,
        "\"".toList ++ "cat".toList ++ "\" → \"".toList ++ "bat".toList ++ "\"".toList⟩
      (by decide)).2.2.2.1⟩
